import Mathlib

/-!
Shallow embedding of the `musings` repository (a personal weight-tracking
tool) for specification checking.

The embedding covers:
* `src/weight.rs` — `Weight`, `WeightLogEntry`, `WeightLog` with
  `new`, `len`, `insert`, `as_slice`, `from_csv`, `moving_average`;
* `src/shell.rs` — `ShellExpander::tilde` (home-directory expansion).

Modelling conventions:
* `u32` values are `Nat` with arithmetic reduced modulo `2^32` exactly where
  the Rust code can overflow (release-profile wrapping semantics);
* `DateTime<Utc>` is an `Int` (seconds since the Unix epoch; ordering on
  instants is the integer ordering);
* panicking code paths (`slice::windows` with size 0, division by zero)
  are modelled with `Option`, fallible code with `Except`;
* `Vec::sort_unstable_by_key` promises only that the result is sorted by the
  key and is a permutation of the input (it explicitly does NOT promise
  stability).  It is modelled by `List.insertionSort` on the key; only the
  sortedness and permutation facts, which hold for the real algorithm as
  well, are used in theorems about logs with distinct timestamps or about
  order-insensitive properties.
-/

namespace Musings

/-- `Weight(u32)` from `src/weight.rs`: a weight in tenths of a kilogram.
The payload is the `u32` value (an arbitrary `Nat` below `2^32`). -/
structure Weight where
  val : Nat
deriving DecidableEq

/-- `2^32`, the modulus of Rust's `u32` arithmetic. -/
def U32 : Nat := 4294967296

/-- `WeightLogEntry { weight, timestamp }` from `src/weight.rs`.  The
`DateTime<Utc>` timestamp is modelled as seconds since the Unix epoch. -/
structure WeightLogEntry where
  weight : Weight
  timestamp : Int
deriving DecidableEq

instance : Inhabited WeightLogEntry := ⟨⟨⟨0⟩, 0⟩⟩

/-- The comparison key used by `insert`'s sort: non-decreasing timestamp. -/
def entryLe (a b : WeightLogEntry) : Prop := a.timestamp ≤ b.timestamp

instance : DecidableRel entryLe := fun a b =>
  inferInstanceAs (Decidable (a.timestamp ≤ b.timestamp))

instance : IsTotal WeightLogEntry entryLe :=
  ⟨fun a b => Int.le_total a.timestamp b.timestamp⟩

instance : IsTrans WeightLogEntry entryLe :=
  ⟨fun _ _ _ hab hbc => le_trans hab hbc⟩

/-- `WeightLog(Vec<WeightLogEntry>)` from `src/weight.rs`. -/
structure WeightLog where
  entries : List WeightLogEntry
deriving DecidableEq

/-- `WeightLog::new`. -/
def WeightLog.new : WeightLog := ⟨[]⟩

/-- `WeightLog::len`. -/
def WeightLog.len (log : WeightLog) : Nat := log.entries.length

/-- `WeightLog::as_slice`. -/
def WeightLog.as_slice (log : WeightLog) : List WeightLogEntry := log.entries

/-- The `sort_required` binding inside `WeightLog::insert`:
`self.0.last().map(WeightLogEntry::timestamp).filter(|&ts| ts > entry.timestamp())`. -/
def sort_required (log : WeightLog) (entry : WeightLogEntry) : Option Int :=
  (log.entries.getLast?.map WeightLogEntry.timestamp).filter
    (fun ts => decide (entry.timestamp < ts))

/-- `WeightLog::insert`: push the entry, then re-sort the whole vector by
timestamp iff the previous last entry had a strictly later timestamp.
`sort_unstable_by_key` is modelled by `insertionSort` on the timestamp key
(see the header comment on its contract). -/
def WeightLog.insert (log : WeightLog) (entry : WeightLogEntry) : WeightLog :=
  let pushed := log.entries ++ [entry]
  match sort_required log entry with
  | some _ => ⟨List.insertionSort entryLe pushed⟩
  | none => ⟨pushed⟩

/-- `WeightLog::moving_average`: `self.0.windows(period)` mapped to one
derived entry per window.  `slice::windows` panics when `period == 0`
(modelled as `none`); the per-window body computes the `u32` sum (wrapping,
hence the `% U32`), divides by `period as u32` (the `usize → u32` cast is
`% U32`; a zero divisor panics, modelled as `none` — reachable only when at
least one window exists), and takes the timestamp of `window[period - 1]`. -/
def WeightLog.moving_average (log : WeightLog) (period : Nat) :
    Option (List WeightLogEntry) :=
  if period = 0 then none
  else if period % U32 = 0 ∧ period ≤ log.entries.length then none
  else some (((List.range (log.entries.length + 1 - period)).map
    (fun i => (log.entries.drop i).take period)).map
    (fun window =>
      let sum := (window.map (fun e => e.weight.val)).sum % U32
      let average := sum / (period % U32)
      let last_timestamp := (window.getD (period - 1) default).timestamp
      ⟨⟨average⟩, last_timestamp⟩))

/-! ### Embedding of `src/shell.rs` -/

/-- One `std::path::Component` (Windows prefixes are irrelevant here). -/
inductive Component where
  | rootDir
  | curDir
  | parentDir
  | normal (s : String)
deriving DecidableEq

/-- `std::borrow::Cow<Path>`: either the borrowed original path (no
allocation) or a newly constructed owned path.  Paths are represented by
their component lists (which is also how Rust compares `Path`s). -/
inductive CowPath where
  | borrowed (p : List Component)
  | owned (p : List Component)
deriving DecidableEq

/-- `const TILDE: &str = "~"` from `src/shell.rs`. -/
def TILDE : String := "~"

/-- Splits a character list at every occurrence of `sep` (used to model both
`Path::components` separators and CSV field/record separators). -/
def splitOnChar (sep : Char) : List Char → List (List Char)
  | [] => [[]]
  | c :: cs =>
    if c = sep then [] :: splitOnChar sep cs
    else match splitOnChar sep cs with
      | [] => [[c]]
      | piece :: rest => (c :: piece) :: rest

/-- Maps one non-empty slash-separated piece to its normalized
`Path::components` element (`.` is normalized away, `..` is `ParentDir`). -/
def componentOfPiece (piece : List Char) : Option Component :=
  if piece = [] then none
  else if piece = ['.'] then none
  else if piece = ['.', '.'] then some Component.parentDir
  else some (Component.normal (String.mk piece))

/-- `Path::components` for Unix paths: a leading `/` is `RootDir`, a leading
`.` is kept as `CurDir`, repeated separators and interior `.` are
normalized away. -/
def parseComponents (p : String) : List Component :=
  let pieces := (splitOnChar '/' p.data).filter (fun piece => piece ≠ [])
  let isAbs : Bool := match p.data with
    | '/' :: _ => true
    | _ => false
  let lead : List Component :=
    if isAbs then [Component.rootDir]
    else match pieces with
      | piece :: _ => if piece = ['.'] then [Component.curDir] else []
      | [] => []
  lead ++ pieces.filterMap componentOfPiece

/-- `ShellExpander { home_dir_var: String }` from `src/shell.rs`. -/
structure ShellExpander where
  home_dir_var : String

/-- `ShellExpander::tilde`.  The process environment is passed explicitly as
a partial map (`env::var` fails — `none` — when the variable is unset or not
readable as Unicode).  When the first component is `Normal("~")` the home
directory value replaces it and the remaining components are appended
(`PathBuf::push` of the relative remainder); any other path is returned
borrowed and untouched. -/
def ShellExpander.tilde (self : ShellExpander) (env : String → Option String)
    (path : String) : Except Unit CowPath :=
  match parseComponents path with
  | Component.normal first :: rest =>
    if first = TILDE then
      match env self.home_dir_var with
      | some home_dir => Except.ok (CowPath.owned (parseComponents home_dir ++ rest))
      | none => Except.error ()
    else Except.ok (CowPath.borrowed (parseComponents path))
  | _ => Except.ok (CowPath.borrowed (parseComponents path))

/-! ### Embedding of `WeightLog::from_csv`

`from_csv` pipes a byte stream through `csv::Reader` and serde
deserialization of `WeightLogEntry` (a `u32` field named `weight` and an
RFC-3339 `DateTime<Utc>` field named `timestamp`), collecting
`Result`s atomically.  The reader/serde behavior is modelled for unquoted
fields (none of the spec's inputs use CSV quoting): the first non-empty
line is the header, fields are bound to struct fields by header name,
records with a field count different from the header's fail, a `u32` field
is an optional `+` followed by decimal digits with value below `2^32`, and
a timestamp field is a full RFC-3339 date-time with mandatory `Z`/`z` or
`±HH:MM` offset and nothing trailing. -/

/-- The error cases of the `csv`/serde pipeline that `from_csv` surfaces. -/
inductive CsvError where
  | unequalLengths
  | missingField
  | invalidWeight
  | invalidTimestamp
deriving DecidableEq

instance {ε α : Type} [DecidableEq ε] [DecidableEq α] : DecidableEq (Except ε α) :=
  fun x y =>
  match x, y with
  | Except.ok a, Except.ok b =>
    if h : a = b then Decidable.isTrue (congrArg Except.ok h)
    else Decidable.isFalse (fun hc => h (Except.ok.inj hc))
  | Except.ok _, Except.error _ => Decidable.isFalse (fun hc => Except.noConfusion hc)
  | Except.error _, Except.ok _ => Decidable.isFalse (fun hc => Except.noConfusion hc)
  | Except.error e, Except.error f =>
    if h : e = f then Decidable.isTrue (congrArg Except.error h)
    else Decidable.isFalse (fun hc => h (Except.error.inj hc))

/-- `Result::collect`-style traversal: the first failing element fails the
whole computation and no partial list is produced. -/
def mapExcept {α β ε : Type} (f : α → Except ε β) : List α → Except ε (List β)
  | [] => Except.ok []
  | a :: as =>
    match f a with
    | Except.error e => Except.error e
    | Except.ok b =>
      match mapExcept f as with
      | Except.error e => Except.error e
      | Except.ok bs => Except.ok (b :: bs)

/-- Parses exactly `n` decimal digits, returning their value and the rest. -/
def readDigits : Nat → Nat → List Char → Option (Nat × List Char)
  | 0, acc, rest => some (acc, rest)
  | n + 1, acc, c :: rest =>
    if c.isDigit then readDigits n (acc * 10 + (c.toNat - 48)) rest else none
  | _ + 1, _, [] => none

/-- Consumes one expected character. -/
def expectChar (c : Char) : List Char → Option (List Char)
  | x :: rest => if x = c then some rest else none
  | [] => none

/-- Drops a leading run of decimal digits. -/
def dropDigits : List Char → List Char
  | c :: rest => if c.isDigit then dropDigits rest else c :: rest
  | [] => []

/-- Consumes an optional RFC-3339 fractional-seconds part (`.` then at
least one digit). -/
def parseFrac : List Char → Option (List Char)
  | '.' :: rest =>
    match rest with
    | c :: _ => if c.isDigit then some (dropDigits rest) else none
    | [] => none
  | l => some l

/-- Consumes an RFC-3339 offset (`Z`/`z` or `±HH:MM`) that must end the
input, returning the offset in seconds. -/
def parseOffset : List Char → Option Int
  | c :: rest =>
    if c = 'Z' ∨ c = 'z' then
      if rest = [] then some 0 else none
    else if c = '+' ∨ c = '-' then
      match readDigits 2 0 rest with
      | some (hh, r1) =>
        match r1 with
        | ':' :: r2 =>
          match readDigits 2 0 r2 with
          | some (mm, r3) =>
            if r3 = [] ∧ hh ≤ 23 ∧ mm ≤ 59 then
              let magnitude : Int := hh * 3600 + mm * 60
              some (if c = '-' then -magnitude else magnitude)
            else none
          | none => none
        | _ => none
      | none => none
    else none
  | [] => none

/-- Proleptic-Gregorian leap-year rule. -/
def isLeapYear (y : Nat) : Bool :=
  y % 4 = 0 ∧ (y % 100 ≠ 0 ∨ y % 400 = 0)

/-- Number of days in a month. -/
def daysInMonth (y m : Nat) : Nat :=
  if m = 2 then (if isLeapYear y then 29 else 28)
  else if m = 4 ∨ m = 6 ∨ m = 9 ∨ m = 11 then 30
  else 31

/-- Days from 1970-01-01 to the given civil date (standard
days-from-civil computation). -/
def daysFromCivil (y m d : Nat) : Int :=
  let yi : Int := y
  let y2 : Int := if m ≤ 2 then yi - 1 else yi
  let era : Int := (if 0 ≤ y2 then y2 else y2 - 399) / 400
  let yoe : Int := y2 - era * 400
  let mp : Int := ((m + 9) % 12 : Nat)
  let doy : Int := (153 * mp + 2) / 5 + (d : Int) - 1
  let doe : Int := yoe * 365 + yoe / 4 - yoe / 100 + doy
  era * 146097 + doe - 719468

/-- RFC-3339 date-time parsing as performed by chrono for
`DateTime<Utc>` deserialization: `YYYY-MM-DDTHH:MM:SS[.frac]OFFSET`
(with `T` also lowercase or a space), validated calendar fields, a
mandatory offset and nothing after it.  Returns seconds since the Unix
epoch. -/
def parseRfc3339 (l : List Char) : Option Int := do
  let (y, r) ← readDigits 4 0 l
  let r ← expectChar '-' r
  let (mo, r) ← readDigits 2 0 r
  let r ← expectChar '-' r
  let (d, r) ← readDigits 2 0 r
  let r ← (match r with
    | c :: rest => if c = 'T' ∨ c = 't' ∨ c = ' ' then some rest else none
    | [] => none)
  let (h, r) ← readDigits 2 0 r
  let r ← expectChar ':' r
  let (mi, r) ← readDigits 2 0 r
  let r ← expectChar ':' r
  let (s, r) ← readDigits 2 0 r
  let r ← parseFrac r
  let off ← parseOffset r
  if 1 ≤ mo ∧ mo ≤ 12 ∧ 1 ≤ d ∧ d ≤ daysInMonth y mo ∧ h ≤ 23 ∧ mi ≤ 59 ∧ s ≤ 60 then
    some (daysFromCivil y mo d * 86400 + (h : Int) * 3600 + (mi : Int) * 60 + (s : Int) - off)
  else none

/-- A `u32` CSV field as parsed by serde: optional `+`, then decimal
digits whose value fits in 32 bits. -/
def parseU32 (l : List Char) : Option Nat :=
  let digits := match l with
    | '+' :: rest => rest
    | _ => l
  if digits ≠ [] ∧ digits.all Char.isDigit then
    let v := digits.foldl (fun a c => a * 10 + (c.toNat - 48)) 0
    if v < U32 then some v else none
  else none

/-- The character list of the `weight` field name. -/
def weightField : List Char := "weight".data

/-- The character list of the `timestamp` field name. -/
def timestampField : List Char := "timestamp".data

/-- Strips one trailing carriage return (CRLF record terminators). -/
def stripCR (l : List Char) : List Char :=
  match l.getLast? with
  | some c => if c = '\r' then l.dropLast else l
  | none => l

/-- The records seen by `csv::Reader`: newline-separated lines, CR
stripped, empty lines ignored. -/
def csvLines (input : String) : List (List Char) :=
  ((splitOnChar '\n' input.data).map stripCR).filter (fun l => l ≠ [])

/-- serde's lookup of a named struct field among the header's field
names: the index of the first exact match. -/
def fieldIndex (name : List Char) : List (List Char) → Option Nat
  | [] => none
  | f :: rest => if f = name then some 0 else (fieldIndex name rest).map (· + 1)

/-- Deserializes one data row against the header's field list: field
counts must agree, both struct fields must be named by the header, and the
two fields must parse as `u32` and RFC-3339 respectively. -/
def parseRow (hfields : List (List Char)) (row : List Char) :
    Except CsvError WeightLogEntry :=
  let fields := splitOnChar ',' row
  if fields.length ≠ hfields.length then Except.error CsvError.unequalLengths
  else
    match fieldIndex weightField hfields, fieldIndex timestampField hfields with
    | some wi, some ti =>
      match parseU32 (fields.getD wi []), parseRfc3339 (fields.getD ti []) with
      | some w, some ts => Except.ok ⟨⟨w⟩, ts⟩
      | none, _ => Except.error CsvError.invalidWeight
      | some _, none => Except.error CsvError.invalidTimestamp
    | _, _ => Except.error CsvError.missingField

/-- `WeightLog::from_csv`: the first line is the header; every following
line is deserialized against it; the collection is atomic (first error
aborts the whole parse).  An input with no record rows deserializes no
records, whatever the header holds. -/
def WeightLog.from_csv (input : String) : Except CsvError WeightLog :=
  match csvLines input with
  | [] => Except.ok ⟨[]⟩
  | header :: rows =>
    match mapExcept (parseRow (splitOnChar ',' header)) rows with
    | Except.error e => Except.error e
    | Except.ok entries => Except.ok ⟨entries⟩

/-! ### Helper lemmas about the log -/

theorem mem_of_getLast? {α : Type} {l : List α} {z : α} (h : l.getLast? = some z) :
    z ∈ l := by
  induction l with
  | nil => cases h
  | cons x t ih =>
    cases t with
    | nil =>
      simp only [List.getLast?_singleton, Option.some.injEq] at h
      simp [h]
    | cons y t' =>
      rw [List.getLast?_cons_cons] at h
      exact List.mem_cons_of_mem x (ih h)

theorem rel_getLast_of_sorted {l : List WeightLogEntry} {z a : WeightLogEntry}
    (hs : List.Sorted entryLe l) (hz : l.getLast? = some z) (ha : a ∈ l) :
    entryLe a z := by
  induction l with
  | nil => cases hz
  | cons x t ih =>
    cases t with
    | nil =>
      simp only [List.getLast?_singleton, Option.some.injEq] at hz
      rcases List.mem_singleton.mp ha with rfl
      rw [← hz]
      exact le_refl _
    | cons y t' =>
      rw [List.getLast?_cons_cons] at hz
      rcases List.mem_cons.mp ha with rfl | hmem
      · exact List.rel_of_sorted_cons hs z (mem_of_getLast? hz)
      · exact ih hs.of_cons hz hmem

/-- `sort_required` is `none` when no stored entry is later than the
inserted entry (in particular the stored last one). -/
theorem sort_required_eq_none_of_le {l : List WeightLogEntry} {e : WeightLogEntry}
    (h : ∀ z ∈ l, entryLe z e) : sort_required ⟨l⟩ e = none := by
  cases hl : l.getLast? with
  | none => simp [sort_required, hl]
  | some z =>
    have hz : ¬ (e.timestamp < z.timestamp) := not_lt.mpr (h z (mem_of_getLast? hl))
    simp [sort_required, hl, Option.filter, hz]

/-- Conversely, `sort_required log e = none` with a non-empty log means the
last stored entry is not later than `e`. -/
theorem last_le_of_sort_required_eq_none {log : WeightLog} {e z : WeightLogEntry}
    (hl : log.entries.getLast? = some z) (hsr : sort_required log e = none) :
    entryLe z e := by
  by_contra hlt
  rw [entryLe, not_le] at hlt
  simp [sort_required, hl, Option.filter, hlt] at hsr

theorem insert_sorted_of_sorted (log : WeightLog) (e : WeightLogEntry)
    (h : List.Sorted entryLe log.entries) :
    List.Sorted entryLe (log.insert e).entries := by
  unfold WeightLog.insert
  cases hsr : sort_required log e with
  | some ts =>
    simpa using List.sorted_insertionSort entryLe (log.entries ++ [e])
  | none =>
    simp only []
    rw [List.Sorted, List.pairwise_append]
    refine ⟨h, List.pairwise_singleton _ _, ?_⟩
    intro a ha b hb
    rcases List.mem_singleton.mp hb with rfl
    cases hl : log.entries.getLast? with
    | none =>
      rw [List.getLast?_eq_none_iff] at hl
      rw [hl] at ha
      cases ha
    | some z =>
      exact le_trans (rel_getLast_of_sorted h hl ha)
        (last_le_of_sort_required_eq_none hl hsr)

/-- Claim C2: every log built purely through `insert` starting from `new()`
has, after every single insert, an `as_slice` that is non-decreasing by
timestamp.  (Every intermediate state of an insertion sequence is itself
the fold of a shorter insertion sequence, so the single statement over all
insertion sequences covers every such moment.) -/
theorem insert_always_sorted (es : List WeightLogEntry) :
    List.Sorted entryLe ((es.foldl WeightLog.insert WeightLog.new).as_slice) := by
  suffices h : ∀ log : WeightLog, List.Sorted entryLe log.entries →
      List.Sorted entryLe ((es.foldl WeightLog.insert log).entries) from
    h WeightLog.new (by simp [WeightLog.new])
  induction es with
  | nil => intro log hlog; exact hlog
  | cons e es ih =>
    intro log hlog
    exact ih (log.insert e) (insert_sorted_of_sorted log e hlog)

/-- Claim C9: `insert` grows `len` by exactly one and the stored records
after an insert are a permutation of the prior records plus the inserted
one — a triggered re-sort neither drops, duplicates, nor alters records. -/
theorem insert_len_and_multiset (log : WeightLog) (e : WeightLogEntry) :
    (log.insert e).len = log.len + 1 ∧
    (log.insert e).entries.Perm (log.entries ++ [e]) := by
  unfold WeightLog.insert WeightLog.len
  cases hsr : sort_required log e with
  | some ts =>
    simp only []
    have hperm := List.perm_insertionSort entryLe (log.entries ++ [e])
    constructor
    · rw [hperm.length_eq]
      simp
    · exact hperm
  | none =>
    simp

/-- Claim C8: `moving_average` with `period == 0` fails (the
`slice::windows` size precondition, and the division by `period`, are both
violated); it neither clamps the period nor returns a defined result. -/
theorem moving_average_zero_period (log : WeightLog) :
    log.moving_average 0 = none := rfl

/-- Folding `insert` over a suffix whose concatenation with the current
entries is sorted only ever appends. -/
theorem foldl_insert_of_sorted (l es : List WeightLogEntry)
    (h : List.Sorted entryLe (l ++ es)) :
    es.foldl WeightLog.insert ⟨l⟩ = ⟨l ++ es⟩ := by
  induction es generalizing l with
  | nil => simp
  | cons e es ih =>
    have hle : ∀ z ∈ l, entryLe z e := by
      intro z hz
      rw [List.Sorted, List.pairwise_append] at h
      exact h.2.2 z hz e (List.mem_cons_self e es)
    have hstep : WeightLog.insert ⟨l⟩ e = ⟨l ++ [e]⟩ := by
      unfold WeightLog.insert
      rw [sort_required_eq_none_of_le hle]
    rw [List.foldl_cons, hstep, ih (l ++ [e]) (by simpa using h)]
    simp

/-- Claim C6: inserting a non-decreasing (by timestamp) sequence one at a
time into an empty log never triggers a re-sort (`sort_required` is `none`
at every step) and makes `as_slice` equal to the insertion sequence. -/
theorem ordered_insert_no_resort (es : List WeightLogEntry)
    (h : List.Sorted entryLe es) :
    (es.foldl WeightLog.insert WeightLog.new).as_slice = es ∧
    ∀ i (hi : i < es.length),
      sort_required ((es.take i).foldl WeightLog.insert WeightLog.new)
        (es.get ⟨i, hi⟩) = none := by
  constructor
  · have hfold := foldl_insert_of_sorted [] es (by simpa using h)
    rw [WeightLog.as_slice, show WeightLog.new = ⟨[]⟩ from rfl, hfold]
    simp
  · intro i hi
    have hsub : List.Sorted entryLe (es.take i) :=
      List.Pairwise.sublist (List.take_sublist i es) h
    have hfold := foldl_insert_of_sorted [] (es.take i) (by simpa using hsub)
    rw [show WeightLog.new = ⟨[]⟩ from rfl, hfold]
    simp only [List.nil_append]
    apply sort_required_eq_none_of_le
    intro z hz
    rcases List.mem_iff_getElem.mp hz with ⟨j, hj, rfl⟩
    have hji : j < i := by rw [List.length_take] at hj; omega
    have hjlen : j < es.length := by rw [List.length_take] at hj; omega
    have hrel := List.pairwise_iff_get.mp h ⟨j, hjlen⟩ ⟨i, hi⟩ hji
    simpa [entryLe] using hrel

/-- Claim C6 witness at a concrete ordered insertion sequence. -/
theorem ordered_insert_no_resort_witness :
    List.Sorted entryLe [(⟨⟨760⟩, 0⟩ : WeightLogEntry), ⟨⟨750⟩, 1⟩] ∧
    (([⟨⟨760⟩, 0⟩, ⟨⟨750⟩, 1⟩] : List WeightLogEntry).foldl
      WeightLog.insert WeightLog.new).as_slice = [⟨⟨760⟩, 0⟩, ⟨⟨750⟩, 1⟩] :=
  ⟨by decide, (ordered_insert_no_resort [⟨⟨760⟩, 0⟩, ⟨⟨750⟩, 1⟩] (by decide)).1⟩

/-! ### Window lemmas for `moving_average` -/

/-- With `1 ≤ period < 2^32`, `moving_average` reaches the window-mapping
branch. -/
theorem moving_average_eq (log : WeightLog) (period : Nat)
    (h1 : 1 ≤ period) (h2 : period < U32) :
    log.moving_average period = some
      (((List.range (log.entries.length + 1 - period)).map
        (fun i => (log.entries.drop i).take period)).map
        (fun window =>
          ⟨⟨(window.map (fun e => e.weight.val)).sum % U32 / (period % U32)⟩,
            (window.getD (period - 1) default).timestamp⟩)) := by
  unfold WeightLog.moving_average
  rw [if_neg (by omega), if_neg]
  intro hc
  have := hc.1
  rw [Nat.mod_eq_of_lt h2] at this
  omega

/-- The shape of every produced record: length of the result and the exact
per-index weight and timestamp. -/
theorem moving_average_get (log : WeightLog) (period : Nat)
    (h1 : 1 ≤ period) (h2 : period < U32) {res : List WeightLogEntry}
    (hres : log.moving_average period = some res) :
    res.length = log.entries.length + 1 - period ∧
    ∀ i (hi : i < res.length),
      res.get ⟨i, hi⟩ =
        ⟨⟨(((log.entries.drop i).take period).map (fun e => e.weight.val)).sum
            % U32 / period⟩,
          (((log.entries.drop i).take period).getD (period - 1) default).timestamp⟩ := by
  rw [moving_average_eq log period h1 h2, Option.some.injEq] at hres
  subst hres
  constructor
  · simp
  · intro i hi
    simp only [List.get_eq_getElem, List.getElem_map, List.getElem_range]
    rw [Nat.mod_eq_of_lt h2]

/-- Every produced window has exactly `period` elements. -/
theorem window_length (log : WeightLog) (period i : Nat)
    (hip : i + period ≤ log.entries.length) :
    ((log.entries.drop i).take period).length = period := by
  rw [List.length_take, List.length_drop]
  omega

/-- Inside the result range, indexing the window at `period - 1` is taking
its last element. -/
theorem window_getD_eq_getLast (log : WeightLog) (period i : Nat)
    (h1 : 1 ≤ period) (hip : i + period ≤ log.entries.length) :
    ∃ last, ((log.entries.drop i).take period).getLast? = some last ∧
      ((log.entries.drop i).take period).getD (period - 1) default = last := by
  have hlen := window_length log period i hip
  have hidx : period - 1 < ((log.entries.drop i).take period).length := by omega
  refine ⟨((log.entries.drop i).take period)[period - 1], ?_, ?_⟩
  · rw [List.getLast?_eq_getElem?, hlen, List.getElem?_eq_getElem hidx]
  · rw [List.getD_eq_getElem?_getD, List.getElem?_eq_getElem hidx, Option.getD_some]

/-- Claim C1 counterexample: the computed window sum is a `u32` and wraps,
so for a reachable log (two in-range `u32` weights of `3·2^30`) the
produced weight is `(sum mod 2^32) / period = 2^30`, not the truncating
quotient of the window's weight sum `3·2^31 / 2 = 3·2^30`. -/
theorem moving_average_overflow_cex :
    WeightLog.moving_average ⟨[⟨⟨3221225472⟩, 0⟩, ⟨⟨3221225472⟩, 1⟩]⟩ 2 =
      some [⟨⟨1073741824⟩, 1⟩] ∧
    (1073741824 : Nat) ≠ (3221225472 + 3221225472) / 2 := by
  constructor
  · decide
  · decide

/-- Claim C1 as amended: for `1 ≤ period < 2^32` (a `u32`-representable
period; the code casts `period as u32`), `moving_average` yields an empty
sequence when `len < period`, and otherwise `len - period + 1` records in
stored window order where the `i`-th record's weight is the truncating
quotient of the window's weight sum REDUCED MODULO `2^32` by `period`, and
its timestamp is the timestamp of the window's last record. -/
theorem moving_average_windows (log : WeightLog) (period : Nat)
    (h1 : 1 ≤ period) (h2 : period < U32) :
    (log.len < period → log.moving_average period = some []) ∧
    ∀ res, log.moving_average period = some res →
      (period ≤ log.len → res.length = log.len - period + 1) ∧
      ∀ i (hi : i < res.length),
        (res.get ⟨i, hi⟩).weight.val =
          (((log.entries.drop i).take period).map (fun e => e.weight.val)).sum
            % U32 / period ∧
        ∃ last, ((log.entries.drop i).take period).getLast? = some last ∧
          (res.get ⟨i, hi⟩).timestamp = last.timestamp := by
  constructor
  · intro hlt
    rw [moving_average_eq log period h1 h2]
    have hm : log.entries.length + 1 - period = 0 := by
      rw [WeightLog.len] at hlt
      omega
    rw [hm]
    simp
  · intro res hres
    have hget := moving_average_get log period h1 h2 hres
    constructor
    · intro hple
      rw [hget.1, WeightLog.len]
      rw [WeightLog.len] at hple
      omega
    · intro i hi
      have hip : i + period ≤ log.entries.length := by
        have := hget.1
        omega
      rcases window_getD_eq_getLast log period i h1 hip with ⟨last, hlast, hgetD⟩
      refine ⟨?_, last, hlast, ?_⟩
      · rw [hget.2 i hi]
      · rw [hget.2 i hi, ← hgetD]

/-- Claim C1 amended-claim witness at the spec's own example: weights
`760, 757, 753` on days `1, 2, 3` with period 2 give `758` at day 2 and
`755` at day 3, and `3 - 2 + 1 = 2` records. -/
theorem moving_average_windows_witness :
    (1 ≤ 2 ∧ 2 < U32 ∧ 2 ≤ (WeightLog.mk [⟨⟨760⟩, 1⟩, ⟨⟨757⟩, 2⟩, ⟨⟨753⟩, 3⟩]).len) ∧
    (WeightLog.mk [⟨⟨760⟩, 1⟩, ⟨⟨757⟩, 2⟩, ⟨⟨753⟩, 3⟩]).moving_average 2 =
      some [⟨⟨758⟩, 2⟩, ⟨⟨755⟩, 3⟩] ∧
    ([⟨⟨758⟩, 2⟩, ⟨⟨755⟩, 3⟩] : List WeightLogEntry).length =
      (WeightLog.mk [⟨⟨760⟩, 1⟩, ⟨⟨757⟩, 2⟩, ⟨⟨753⟩, 3⟩]).len - 2 + 1 :=
  ⟨⟨by decide, by decide, by decide⟩, by decide,
    ((moving_average_windows ⟨[⟨⟨760⟩, 1⟩, ⟨⟨757⟩, 2⟩, ⟨⟨753⟩, 3⟩]⟩ 2
      (by decide) (by decide)).2 [⟨⟨758⟩, 2⟩, ⟨⟨755⟩, 3⟩] (by decide)).1 (by decide)⟩

/-- Truncated-quotient gap under wrap-around: when the true sum is at least
`2^32` the wrapped quotient is strictly below the true quotient. -/
theorem mod_div_lt_div {sum p : Nat} (hp : 0 < p) (hpU : p ≤ U32)
    (hs : U32 ≤ sum) : sum % U32 / p < sum / p := by
  have hU : 0 < U32 := by norm_num [U32]
  have h1 : 1 ≤ U32 / p := (Nat.one_le_div_iff hp).mpr hpU
  have h2 : sum % U32 / p + U32 / p ≤ (sum % U32 + U32) / p := by
    rw [Nat.le_div_iff_mul_le hp, Nat.add_mul]
    exact Nat.add_le_add (Nat.div_mul_le_self _ _) (Nat.div_mul_le_self _ _)
  have h3 : sum % U32 + U32 ≤ sum := by
    have hdm := Nat.div_add_mod sum U32
    have hq : 1 ≤ sum / U32 := (Nat.one_le_div_iff hU).mpr hs
    have hmul : U32 * 1 ≤ U32 * (sum / U32) := Nat.mul_le_mul_left U32 hq
    omega
  have h4 : (sum % U32 + U32) / p ≤ sum / p := Nat.div_le_div_right h3
  omega

/-- Claim C10: each window's weight sum is computed in wrapping 32-bit
unsigned arithmetic — whenever the exact sum is at least `2^32`, the
produced weight is `(sum mod 2^32) / period`, which differs from (is
strictly below) the exact truncating mean `sum / period`. -/
theorem moving_average_wraps_u32 (log : WeightLog) (period : Nat)
    (res : List WeightLogEntry) (h1 : 1 ≤ period) (h2 : period < U32)
    (hres : log.moving_average period = some res) (i : Nat)
    (hi : i < res.length)
    (hover : U32 ≤ (((log.entries.drop i).take period).map
      (fun e => e.weight.val)).sum) :
    (res.get ⟨i, hi⟩).weight.val =
      (((log.entries.drop i).take period).map (fun e => e.weight.val)).sum
        % U32 / period ∧
    (res.get ⟨i, hi⟩).weight.val ≠
      (((log.entries.drop i).take period).map (fun e => e.weight.val)).sum
        / period := by
  have hget := moving_average_get log period h1 h2 hres
  have hval : (res.get ⟨i, hi⟩).weight.val =
      (((log.entries.drop i).take period).map (fun e => e.weight.val)).sum
        % U32 / period := by
    rw [hget.2 i hi]
  refine ⟨hval, ?_⟩
  rw [hval]
  exact Nat.ne_of_lt (mod_div_lt_div (by omega) (le_of_lt h2) hover)

/-- Claim C10 witness: two weights of `4·10^9` (valid `u32`s) sum to
`8·10^9 ≥ 2^32`; the produced mean is the wrapped `1852516352`, not the
exact `4·10^9`. -/
theorem moving_average_wraps_u32_witness :
    (WeightLog.mk [⟨⟨4000000000⟩, 0⟩, ⟨⟨4000000000⟩, 1⟩]).moving_average 2 =
      some [⟨⟨1852516352⟩, 1⟩] ∧
    U32 ≤ ((((WeightLog.mk [⟨⟨4000000000⟩, 0⟩, ⟨⟨4000000000⟩, 1⟩]).entries.drop 0).take 2).map
      (fun e => e.weight.val)).sum ∧
    (([⟨⟨1852516352⟩, 1⟩] : List WeightLogEntry).get ⟨0, by decide⟩).weight.val ≠
      ((((WeightLog.mk [⟨⟨4000000000⟩, 0⟩, ⟨⟨4000000000⟩, 1⟩]).entries.drop 0).take 2).map
        (fun e => e.weight.val)).sum / 2 :=
  ⟨by decide, by decide,
    (moving_average_wraps_u32 ⟨[⟨⟨4000000000⟩, 0⟩, ⟨⟨4000000000⟩, 1⟩]⟩ 2
      [⟨⟨1852516352⟩, 1⟩] (by decide) (by decide) (by decide) 0 (by decide)
      (by decide)).2⟩

/-- Claim C7: `tilde` returns the original path borrowed whenever the
first component is not exactly the tilde token (a tilde elsewhere is left
untouched); when the first component is the tilde token and the environment
variable is set it returns an owned path of the variable's value with the
remaining components appended; and it fails exactly when expansion is
needed and the variable is unset or unreadable. -/
theorem tilde_spec (se : ShellExpander) (env : String → Option String)
    (path : String) :
    ((parseComponents path).head? ≠ some (Component.normal TILDE) →
      se.tilde env path = Except.ok (CowPath.borrowed (parseComponents path))) ∧
    (∀ home rest, parseComponents path = Component.normal TILDE :: rest →
      env se.home_dir_var = some home →
      se.tilde env path = Except.ok (CowPath.owned (parseComponents home ++ rest))) ∧
    (∀ rest, parseComponents path = Component.normal TILDE :: rest →
      env se.home_dir_var = none → se.tilde env path = Except.error ()) ∧
    (se.tilde env path = Except.error () →
      (parseComponents path).head? = some (Component.normal TILDE) ∧
      env se.home_dir_var = none) := by
  refine ⟨?_, ?_, ?_, ?_⟩
  · intro hne
    unfold ShellExpander.tilde
    cases hc : parseComponents path with
    | nil => rfl
    | cons c rest =>
      cases c with
      | normal first =>
        rw [hc] at hne
        have hfirst : ¬ first = TILDE := by
          intro hceq
          subst hceq
          simp at hne
        simp only []
        rw [if_neg hfirst]
      | rootDir => rfl
      | curDir => rfl
      | parentDir => rfl
  · intro home rest heq henv
    unfold ShellExpander.tilde
    rw [heq]
    simp only []
    rw [if_pos trivial, henv]
  · intro rest heq henv
    unfold ShellExpander.tilde
    rw [heq]
    simp only []
    rw [if_pos trivial, henv]
  · intro hcon
    unfold ShellExpander.tilde at hcon
    cases hc : parseComponents path with
    | nil =>
      rw [hc] at hcon
      cases hcon
    | cons c rest =>
      cases c with
      | normal first =>
        rw [hc] at hcon
        simp only [] at hcon
        by_cases hfirst : first = TILDE
        · subst hfirst
          rw [if_pos rfl] at hcon
          cases henv : env se.home_dir_var with
          | some home =>
            rw [henv] at hcon
            cases hcon
          | none =>
            exact ⟨rfl, rfl⟩
        · rw [if_neg hfirst] at hcon
          cases hcon
      | rootDir =>
        rw [hc] at hcon
        cases hcon
      | curDir =>
        rw [hc] at hcon
        cases hcon
      | parentDir =>
        rw [hc] at hcon
        cases hcon

/-- Claim C7 witness at the spec's examples: with the variable set to
`home`, `~/some/path` expands to the owned `home/some/path`, and
`some/~/path` comes back borrowed and untouched; with the variable unset,
`~/x` is the failure case. -/
theorem tilde_spec_witness :
    ShellExpander.tilde ⟨"HOME"⟩
      (fun v => if v = "HOME" then some "home" else none) "~/some/path" =
      Except.ok (CowPath.owned
        [Component.normal "home", Component.normal "some", Component.normal "path"]) ∧
    ShellExpander.tilde ⟨"HOME"⟩
      (fun v => if v = "HOME" then some "home" else none) "some/~/path" =
      Except.ok (CowPath.borrowed
        [Component.normal "some", Component.normal "~", Component.normal "path"]) ∧
    ShellExpander.tilde ⟨"HOME"⟩ (fun _ => none) "~/x" = Except.error () := by
  refine ⟨?_, ?_, ?_⟩
  · have h := (tilde_spec ⟨"HOME"⟩
      (fun v => if v = "HOME" then some "home" else none) "~/some/path").2.1
      "home" [Component.normal "some", Component.normal "path"]
      (by decide) (by decide)
    rw [h]
    decide
  · have h := (tilde_spec ⟨"HOME"⟩
      (fun v => if v = "HOME" then some "home" else none) "some/~/path").1
      (by decide)
    rw [h]
    decide
  · exact (tilde_spec ⟨"HOME"⟩ (fun _ => none) "~/x").2.2.1
      [Component.normal "x"] (by decide) rfl

/-! ### Lemmas about the CSV pipeline -/

theorem fieldIndex_eq_none_of_not_mem {name : List Char} {l : List (List Char)}
    (h : name ∉ l) : fieldIndex name l = none := by
  induction l with
  | nil => rfl
  | cons f rest ih =>
    unfold fieldIndex
    rw [if_neg, ih (fun hm => h (List.mem_cons_of_mem f hm))]
    · rfl
    · intro hceq
      exact h (hceq ▸ List.mem_cons_self f rest)

/-- A field containing a decimal point is not a valid `u32` literal. -/
theorem parseU32_eq_none_of_dot {l : List Char} (h : '.' ∈ l) :
    parseU32 l = none := by
  have hplus : ∀ digits : List Char, '.' ∈ digits →
      ¬ (digits ≠ [] ∧ digits.all Char.isDigit = true) := by
    intro digits hdot ⟨_, hall⟩
    have := List.all_eq_true.mp hall '.' hdot
    simp [Char.isDigit] at this
  have hdig : '.' ∈ (match l with
    | '+' :: rest => rest
    | _ => l) := by
    split
    · next =>
      rcases List.mem_cons.mp h with hceq | hm
      · cases hceq
      · exact hm
    · exact h
  unfold parseU32
  simp only []
  rw [if_neg (hplus _ hdig)]

theorem mapExcept_error_of_mem {α β ε : Type} {f : α → Except ε β}
    {l : List α} {b : α} (hb : b ∈ l) {e : ε} (he : f b = Except.error e) :
    ∃ e2, mapExcept f l = Except.error e2 := by
  induction l with
  | nil => cases hb
  | cons a rest ih =>
    unfold mapExcept
    rcases List.mem_cons.mp hb with rfl | hm
    · rw [he]
      exact ⟨e, rfl⟩
    · cases hfa : f a with
      | error e0 => exact ⟨e0, rfl⟩
      | ok b0 =>
        rcases ih hm with ⟨e2, h2⟩
        rw [h2]
        exact ⟨e2, rfl⟩

theorem mapExcept_ok_forall {α β ε : Type} {f : α → Except ε β}
    {l : List α} {bs : List β} (h : mapExcept f l = Except.ok bs) :
    ∀ b ∈ l, ∃ c, f b = Except.ok c := by
  induction l generalizing bs with
  | nil => intro b hb; cases hb
  | cons a rest ih =>
    intro b hb
    unfold mapExcept at h
    cases hfa : f a with
    | error e0 =>
      rw [hfa] at h
      cases h
    | ok c0 =>
      rw [hfa] at h
      cases hrest : mapExcept f rest with
      | error e0 =>
        rw [hrest] at h
        cases h
      | ok cs =>
        rcases List.mem_cons.mp hb with rfl | hm
        · exact ⟨c0, hfa⟩
        · exact ih hrest b hm

theorem parseRow_error_of_missing_field {hfields : List (List Char)}
    {row : List Char}
    (h : weightField ∉ hfields ∨ timestampField ∉ hfields) :
    ∃ e, parseRow hfields row = Except.error e := by
  unfold parseRow
  by_cases hlen : (splitOnChar ',' row).length ≠ hfields.length
  · exact ⟨CsvError.unequalLengths, by rw [if_pos hlen]⟩
  · rw [if_neg hlen]
    rcases h with h | h
    · rw [fieldIndex_eq_none_of_not_mem h]
      exact ⟨CsvError.missingField, rfl⟩
    · rw [fieldIndex_eq_none_of_not_mem h]
      cases fieldIndex weightField hfields with
      | none => exact ⟨CsvError.missingField, rfl⟩
      | some wi => exact ⟨CsvError.missingField, rfl⟩

theorem parseRow_error_of_bad_weight {hfields : List (List Char)}
    {row : List Char} {wi : Nat}
    (hw : fieldIndex weightField hfields = some wi)
    (hdot : '.' ∈ (splitOnChar ',' row).getD wi []) :
    ∃ e, parseRow hfields row = Except.error e := by
  unfold parseRow
  by_cases hlen : (splitOnChar ',' row).length ≠ hfields.length
  · exact ⟨CsvError.unequalLengths, by rw [if_pos hlen]⟩
  · rw [if_neg hlen, hw]
    cases ht : fieldIndex timestampField hfields with
    | none => exact ⟨CsvError.missingField, rfl⟩
    | some ti =>
      simp only []
      rw [parseU32_eq_none_of_dot hdot]
      exact ⟨CsvError.invalidWeight, rfl⟩

theorem parseRow_error_of_bad_timestamp {hfields : List (List Char)}
    {row : List Char} {ti : Nat}
    (ht : fieldIndex timestampField hfields = some ti)
    (hrfc : parseRfc3339 ((splitOnChar ',' row).getD ti []) = none) :
    ∃ e, parseRow hfields row = Except.error e := by
  unfold parseRow
  by_cases hlen : (splitOnChar ',' row).length ≠ hfields.length
  · exact ⟨CsvError.unequalLengths, by rw [if_pos hlen]⟩
  · rw [if_neg hlen, ht]
    cases hw : fieldIndex weightField hfields with
    | none => exact ⟨CsvError.missingField, rfl⟩
    | some wi =>
      simp only []
      rw [hrfc]
      cases parseU32 ((splitOnChar ',' row).getD wi []) with
      | none => exact ⟨CsvError.invalidWeight, rfl⟩
      | some w => exact ⟨CsvError.invalidTimestamp, rfl⟩

theorem from_csv_error_of_row {input : String} {h : List Char}
    {rows : List (List Char)} (hlines : csvLines input = h :: rows)
    {row : List Char} (hrow : row ∈ rows)
    (herr : ∃ e, parseRow (splitOnChar ',' h) row = Except.error e) :
    ∃ e, WeightLog.from_csv input = Except.error e := by
  rcases herr with ⟨e, he⟩
  rcases mapExcept_error_of_mem hrow he with ⟨e2, h2⟩
  refine ⟨e2, ?_⟩
  unfold WeightLog.from_csv
  rw [hlines]
  simp only []
  rw [h2]

/-- Claim C4 counterexample: a header-less input (its only line is a data
row, so the header names neither `weight` nor `timestamp`) does NOT fail —
with no record rows after the consumed header line, `from_csv` succeeds
with an empty log. -/
theorem from_csv_headerless_single_line_ok :
    WeightLog.from_csv "760,2019-01-01T00:06:00+00:00" = Except.ok ⟨[]⟩ := by
  decide

/-- Claim C4 as amended: `from_csv` fails with a parse error when the
header does not name both `weight` and `timestamp` AND at least one record
row follows (with no record rows it returns an empty log whatever the
first line holds); it fails when any record row's weight field has a
decimal point (extra precision) or its timestamp field is not valid
RFC-3339; and the operation is atomic — success means every record row
deserialized. -/
theorem from_csv_failure_modes :
    (∀ (input : String) (h : List Char) (rows : List (List Char)),
      csvLines input = h :: rows → rows ≠ [] →
      (weightField ∉ splitOnChar ',' h ∨ timestampField ∉ splitOnChar ',' h) →
      ∃ e, WeightLog.from_csv input = Except.error e) ∧
    (∀ (input : String) (h : List Char) (rows : List (List Char))
      (row : List Char) (wi : Nat),
      csvLines input = h :: rows → row ∈ rows →
      fieldIndex weightField (splitOnChar ',' h) = some wi →
      '.' ∈ (splitOnChar ',' row).getD wi [] →
      ∃ e, WeightLog.from_csv input = Except.error e) ∧
    (∀ (input : String) (h : List Char) (rows : List (List Char))
      (row : List Char) (ti : Nat),
      csvLines input = h :: rows → row ∈ rows →
      fieldIndex timestampField (splitOnChar ',' h) = some ti →
      parseRfc3339 ((splitOnChar ',' row).getD ti []) = none →
      ∃ e, WeightLog.from_csv input = Except.error e) ∧
    (∀ (input : String) (log : WeightLog),
      WeightLog.from_csv input = Except.ok log →
      ∀ (h : List Char) (rows : List (List Char)), csvLines input = h :: rows →
      ∀ row ∈ rows, ∃ en, parseRow (splitOnChar ',' h) row = Except.ok en) ∧
    (∀ (input : String) (h : List Char), csvLines input = [h] →
      WeightLog.from_csv input = Except.ok ⟨[]⟩) := by
  refine ⟨?_, ?_, ?_, ?_, ?_⟩
  · intro input h rows hlines hne hmiss
    cases rows with
    | nil => exact absurd rfl hne
    | cons r rs =>
      exact from_csv_error_of_row hlines (List.mem_cons_self r rs)
        (parseRow_error_of_missing_field hmiss)
  · intro input h rows row wi hlines hrow hw hdot
    exact from_csv_error_of_row hlines hrow
      (parseRow_error_of_bad_weight hw hdot)
  · intro input h rows row ti hlines hrow ht hrfc
    exact from_csv_error_of_row hlines hrow
      (parseRow_error_of_bad_timestamp ht hrfc)
  · intro input log hok h rows hlines row hrow
    unfold WeightLog.from_csv at hok
    rw [hlines] at hok
    simp only [] at hok
    cases hm : mapExcept (parseRow (splitOnChar ',' h)) rows with
    | error e =>
      rw [hm] at hok
      cases hok
    | ok entries =>
      exact mapExcept_ok_forall hm row hrow
  · intro input h hlines
    unfold WeightLog.from_csv
    rw [hlines]
    rfl

/-- Claim C4 amended-claim witness: a bad-header input with a record row,
an over-precise weight and a malformed offset each fail concretely. -/
theorem from_csv_failure_modes_witness :
    (∃ e, WeightLog.from_csv
      "760,2019-01-01T00:06:00+00:00\n750,2019-01-02T00:06:00+00:00" =
      Except.error e) ∧
    (∃ e, WeightLog.from_csv
      "weight,timestamp\n76.05,2019-01-01T00:06:00+00:00" =
      Except.error e) ∧
    (∃ e, WeightLog.from_csv
      "weight,timestamp\n760,2019-01-01T00:06:00+00:00:00" =
      Except.error e) :=
  ⟨from_csv_failure_modes.1
      "760,2019-01-01T00:06:00+00:00\n750,2019-01-02T00:06:00+00:00"
      "760,2019-01-01T00:06:00+00:00".data
      ["750,2019-01-02T00:06:00+00:00".data]
      (by decide) (by decide) (Or.inl (by decide)),
    from_csv_failure_modes.2.1
      "weight,timestamp\n76.05,2019-01-01T00:06:00+00:00"
      "weight,timestamp".data ["76.05,2019-01-01T00:06:00+00:00".data]
      "76.05,2019-01-01T00:06:00+00:00".data 0
      (by decide) (by decide) (by decide) (by decide),
    from_csv_failure_modes.2.2.1
      "weight,timestamp\n760,2019-01-01T00:06:00+00:00:00"
      "weight,timestamp".data ["760,2019-01-01T00:06:00+00:00:00".data]
      "760,2019-01-01T00:06:00+00:00:00".data 1
      (by decide) (by decide) (by decide) (by decide)⟩

/-- Claim C5 counterexample: the weight column holds the raw `u32` tenths
value, so the one-decimal literal `76.0` the claim calls valid is in fact
rejected by `from_csv`. -/
theorem from_csv_rejects_one_decimal_weight :
    WeightLog.from_csv "weight,timestamp\n76.0,2019-01-01T00:06:00+00:00" =
      Except.error CsvError.invalidWeight := by
  decide

/-- Claim C5 as amended: a weight literal parses only as a plain unsigned
integer (the tenths-scaled value, e.g. `760` for 76.0 kg); any literal
containing a decimal point — `76.0` just as much as `76.05` — fails
parsing. -/
theorem weight_literal_integer_only :
    (∀ l : List Char, '.' ∈ l → parseU32 l = none) ∧
    WeightLog.from_csv "weight,timestamp\n760,2019-01-01T00:06:00+00:00" =
      Except.ok ⟨[⟨⟨760⟩, 1546301160⟩]⟩ ∧
    WeightLog.from_csv "weight,timestamp\n76.05,2019-01-01T00:06:00+00:00" =
      Except.error CsvError.invalidWeight :=
  ⟨fun _ h => parseU32_eq_none_of_dot h, by decide, by decide⟩

/-- Claim C5 amended-claim witness at the literal `76.0`. -/
theorem weight_literal_integer_only_witness :
    ('.' ∈ "76.0".data) ∧ parseU32 "76.0".data = none :=
  ⟨by decide, weight_literal_integer_only.1 "76.0".data (by decide)⟩

end Musings
